import Mathlib

/-!
# Verification of the trace-based speculative compiler pass (buildspec)

Shallow embedding of the trace optimizer in `cs6120/task 12/buildspec.ts`:
the Trace Reducer (`optimizeTrace`: constant folding then dead-assignment
elimination), Guard Lowering (the per-instruction loop in `main` that turns
branches, calls/returns and prints into runtime guards plus a deferred-print
queue), and the Speculative Assembler (the construction of the new `main`
body around `speculate`/`commit` with a bail label and a fallback copy).

Modelling conventions:
* JSON instruction records are the sum `Instr` of a label and an operation
  with optional fields, an absent field being `none`.
* JavaScript `Map` objects are association lists where `set` prepends and
  `get` takes the first (most recent) binding: observationally identical to
  `Map.set`/`Map.get`/`Map.has`.
* JavaScript numbers are IEEE-754 binary64 values, modelled exactly by
  `FP64` (NaN, signed infinities, signed zeros, and finite values in a
  canonical sign/mantissa/exponent form).  The arithmetic used by the fold
  (`Number(vx) + Number(vy)` and friends) is the correctly rounded
  binary64 arithmetic (round to nearest, ties to even, overflow to
  infinity, gradual underflow), and `Number(...)` on strings follows the
  ECMAScript ToNumber grammar with correctly rounded conversion.
* TypeScript truthiness on optional strings (`instr.dest`, the `br`
  condition) treats both an absent field and the empty string as falsy.
-/

namespace BuildSpec

/-- An IEEE-754 binary64 (JavaScript number) value.  `finite s m e` is the
number `(-1)^s * m * 2^e` in canonical form: `0 < m < 2^53`, `-1074 ≤ e`,
and either `2^52 ≤ m` (normal) or `e = -1074` (subnormal); `zero s` is the
signed zero and `inf s` the signed infinity (`s = true` is negative).
Every binary64 value has exactly one representation, so derived equality
is value equality. -/
inductive FP64 where
  | nan
  | inf (sign : Bool)
  | zero (sign : Bool)
  | finite (sign : Bool) (m : Nat) (e : Int)
deriving DecidableEq, Repr

/-- Number of binary digits of a natural number (`0` has none).  The
first argument is recursion fuel; it is always called with fuel at least
the number itself, which exceeds the digit count. -/
def bitSizeAux : Nat → Nat → Nat
  | 0, _ => 0
  | fuel + 1, n => if n = 0 then 0 else bitSizeAux fuel (n / 2) + 1

def bitSize (n : Nat) : Nat := bitSizeAux n n

/-- Floor of `N / (D * 2^t)` together with the comparison of twice the
remainder against the divisor (the rounding direction: `lt` means round
down, `gt` round up, `eq` a tie). -/
def ratShiftDiv (N D : Nat) (t : Int) : Nat × Ordering :=
  let num := if 0 ≤ t then N else N * 2 ^ (-t).toNat
  let den := if 0 ≤ t then D * 2 ^ t.toNat else D
  (num / den, compare (2 * (num % den)) den)

/-- The binary64 value nearest to the rational `N / D` (`D > 0`), with the
given sign: round to nearest, ties to even, overflow to infinity, gradual
underflow to subnormals and zero.  The scaling exponent `t` is chosen so
that `N / (D * 2^t)` lies in `[2^52, 2^54)` from the binary sizes of `N`
and `D`, corrected by one step, then clamped at the subnormal limit. -/
def FP64.ofRat (sign : Bool) (N D : Nat) : FP64 :=
  if N = 0 then .zero sign else
  let t0 : Int := (bitSize N : Int) - (bitSize D : Int) - 53
  let t1 : Int := if 2 ^ 53 ≤ (ratShiftDiv N D t0).1 then t0 + 1 else t0
  let t : Int := max t1 (-1074)
  let p := ratShiftDiv N D t
  let q : Nat :=
    match p.2 with
    | .gt => p.1 + 1
    | .lt => p.1
    | .eq => if p.1 % 2 = 0 then p.1 else p.1 + 1
  if q = 0 then .zero sign
  else
    let p2 : Nat × Int := if q = 2 ^ 53 then (2 ^ 52, t + 1) else (q, t)
    if 971 < p2.2 then .inf sign else .finite sign p2.1 p2.2

/-- The binary64 value nearest to `(-1)^sign * m * 2^e`. -/
def FP64.ofDyadic (sign : Bool) (m : Nat) (e : Int) : FP64 :=
  if 0 ≤ e then FP64.ofRat sign (m * 2 ^ e.toNat) 1
  else FP64.ofRat sign m (2 ^ (-e).toNat)

/-- The binary64 value of a natural number. -/
def FP64.ofNat (n : Nat) : FP64 := FP64.ofRat false n 1

def FP64.neg : FP64 → FP64
  | .nan => .nan
  | .inf s => .inf (!s)
  | .zero s => .zero (!s)
  | .finite s m e => .finite (!s) m e

/-- IEEE-754 binary64 addition (round to nearest, ties to even): NaN
propagates, opposite infinities give NaN, a zero is the identity (with
`(-0) + (-0) = -0` and `(+0) + (-0) = +0`), an exactly cancelling finite
sum gives `+0`, and otherwise the exact dyadic sum is rounded. -/
def FP64.add : FP64 → FP64 → FP64
  | .nan, _ => .nan
  | _, .nan => .nan
  | .inf s1, .inf s2 => if s1 = s2 then .inf s1 else .nan
  | .inf s, _ => .inf s
  | _, .inf s => .inf s
  | .zero s1, .zero s2 => if s1 = s2 then .zero s1 else .zero false
  | .zero _, y => y
  | x, .zero _ => x
  | .finite s1 m1 e1, .finite s2 m2 e2 =>
    let em := min e1 e2
    let i1 : Int := (if s1 then -(m1 : Int) else (m1 : Int)) *
      2 ^ (e1 - em).toNat
    let i2 : Int := (if s2 then -(m2 : Int) else (m2 : Int)) *
      2 ^ (e2 - em).toNat
    let s := i1 + i2
    if s = 0 then .zero false
    else FP64.ofDyadic (decide (s < 0)) s.natAbs em

/-- IEEE-754 binary64 subtraction: `x - y = x + (-y)` in every case. -/
def FP64.sub (x y : FP64) : FP64 := FP64.add x (FP64.neg y)

/-- IEEE-754 binary64 multiplication: NaN propagates, infinity times zero
is NaN, the sign is always the exclusive or of the operand signs, and a
finite product is the exact dyadic product rounded. -/
def FP64.mul : FP64 → FP64 → FP64
  | .nan, _ => .nan
  | _, .nan => .nan
  | .inf s1, .inf s2 => .inf (Bool.xor s1 s2)
  | .inf _, .zero _ => .nan
  | .zero _, .inf _ => .nan
  | .inf s1, .finite s2 _ _ => .inf (Bool.xor s1 s2)
  | .finite s1 _ _, .inf s2 => .inf (Bool.xor s1 s2)
  | .zero s1, .zero s2 => .zero (Bool.xor s1 s2)
  | .zero s1, .finite s2 _ _ => .zero (Bool.xor s1 s2)
  | .finite s1 _ _, .zero s2 => .zero (Bool.xor s1 s2)
  | .finite s1 m1 e1, .finite s2 m2 e2 =>
    FP64.ofDyadic (Bool.xor s1 s2) (m1 * m2) (e1 + e2)

/-- A literal value carried by a `const` instruction or stored in the
constant environment: a JavaScript number (any binary64 value, NaN and
infinities included), a boolean, or a string. -/
inductive Value where
  | num (d : FP64)
  | bool (b : Bool)
  | str (s : String)
deriving DecidableEq, Repr

/-- An instruction record with the optional fields accessed by the pass
(`op`, `dest`, `type`, `args`, `value`, `labels`, `funcs`); an absent JSON
field is `none`. -/
structure Operation where
  op : String
  dest : Option String := none
  type : Option String := none
  args : Option (List String) := none
  value : Option Value := none
  labels : Option (List String) := none
  funcs : Option (List String) := none
deriving DecidableEq, Repr

/-- A trace or function-body entry: a label record (no `op` field) or an
operation. -/
inductive Instr where
  | label (name : String)
  | op (o : Operation)
deriving DecidableEq, Repr

/-- A function: name, optional parameter list, optional return type,
instruction list.  Parameters are kept abstract as name/type pairs. -/
structure Param where
  name : String
  type : String
deriving DecidableEq, Repr

structure Func where
  name : String
  args : Option (List Param) := none
  type : Option String := none
  instrs : List Instr
deriving DecidableEq, Repr

structure Program where
  functions : List Func
deriving DecidableEq, Repr

/-- JS `Map.get`: the most recent binding of the key, if any. -/
def mapGet {α : Type} (m : List (String × α)) (k : String) : Option α :=
  match m with
  | [] => none
  | (k2, v) :: rest => if k2 = k then some v else mapGet rest k

/-- JS `Map.set`: bind the key, shadowing any earlier binding. -/
def mapSet {α : Type} (m : List (String × α)) (k : String) (v : α) :
    List (String × α) :=
  (k, v) :: m

/-- The constant environment of the fold pass.  The source stores
`instr.value` unchecked, so a `const` without a `value` field binds its
destination to `undefined`, modelled by `some none`. -/
abbrev EnvT : Type := List (String × Option Value)

/-- TS truthiness of an optional string field: `none` for an absent field
and for the (falsy) empty string. -/
def destTruthy (o : Operation) : Option String :=
  match o.dest with
  | some d => if d = "" then none else some d
  | none => none

/-- `env.get(x) !== undefined`: a stored `undefined` is indistinguishable
from an absent key. -/
def envGet (env : EnvT) (x : String) : Option Value :=
  match mapGet env x with
  | some (some v) => some v
  | _ => none

/-- `env.get` applied to a possibly-missing argument name (JS
`env.get(undefined)` is `undefined`). -/
def bindGet (env : EnvT) (x : Option String) : Option Value :=
  match x with
  | some s => envGet env s
  | none => none

/-- The ECMAScript StrWhiteSpace characters trimmed by ToNumber: tab,
line feed, vertical tab, form feed, carriage return, space, no-break
space, the Unicode space separators, the line and paragraph separators,
and the zero-width no-break space. -/
def isStrWhiteSpace (c : Char) : Bool :=
  decide (c.toNat ∈ ([9, 10, 11, 12, 13, 32, 0xa0, 0x1680, 0x2028, 0x2029,
    0x202f, 0x205f, 0x3000, 0xfeff] : List Nat))
  || decide (0x2000 ≤ c.toNat ∧ c.toNat ≤ 0x200a)

/-- Split a character list into its leading run of decimal digits and the
remainder. -/
def takeDigits (l : List Char) : List Char × List Char :=
  (l.takeWhile Char.isDigit, l.dropWhile Char.isDigit)

/-- The natural number denoted by a list of decimal digits. -/
def digitsVal (l : List Char) : Nat :=
  l.foldl (fun a c => a * 10 + (c.toNat - 48)) 0

/-- An exponent digit run that must consume the whole remainder. -/
def expDigits (l : List Char) : Option Nat :=
  let p := takeDigits l
  if p.1 = [] ∨ p.2 ≠ [] then none else some (digitsVal p.1)

/-- The optional ExponentPart closing a decimal literal: empty, or
`e`/`E`, an optional sign and digits reaching the end of the input. -/
def parseExpPart : List Char → Option Int
  | [] => some 0
  | c :: rest =>
    if c = 'e' ∨ c = 'E' then
      match rest with
      | '+' :: r2 => (expDigits r2).map (fun n => (n : Int))
      | '-' :: r2 => (expDigits r2).map (fun n => -(n : Int))
      | r2 => (expDigits r2).map (fun n => (n : Int))
    else none

/-- An unsigned StrDecimalLiteral `digits [. digits] [exp]` or
`. digits [exp]`, as a pair `(D, k)` denoting `D * 10^k`. -/
def parseDecimal (l : List Char) : Option (Nat × Int) :=
  let ip := takeDigits l
  match ip.1, ip.2 with
  | [], '.' :: r2 =>
    let fp := takeDigits r2
    if fp.1 = [] then none
    else (parseExpPart fp.2).map
      (fun ex => (digitsVal fp.1, ex - fp.1.length))
  | [], _ => none
  | _, '.' :: r2 =>
    let fp := takeDigits r2
    (parseExpPart fp.2).map
      (fun ex => (digitsVal (ip.1 ++ fp.1), ex - fp.1.length))
  | _, _ => (parseExpPart ip.2).map (fun ex => (digitsVal ip.1, ex))

/-- The correctly rounded binary64 value of the decimal `D * 10^k` with
the given sign. -/
def decimalToFP (sign : Bool) (D : Nat) (k : Int) : FP64 :=
  if 0 ≤ k then FP64.ofRat sign (D * 10 ^ k.toNat) 1
  else FP64.ofRat sign D (10 ^ (-k).toNat)

/-- The value of one digit in the given radix (hex letters in either
case), if valid. -/
def radixDigitVal (radix : Nat) (c : Char) : Option Nat :=
  let v :=
    if c.isDigit then some (c.toNat - 48)
    else if 'a' ≤ c ∧ c ≤ 'f' then some (c.toNat - 87)
    else if 'A' ≤ c ∧ c ≤ 'F' then some (c.toNat - 55)
    else none
  match v with
  | some d => if d < radix then some d else none
  | none => none

/-- A NonDecimalIntegerLiteral body: a nonempty all-valid digit run in
the radix, correctly rounded to binary64; anything else is NaN. -/
def parseRadixAll (radix : Nat) (l : List Char) : FP64 :=
  if l = [] then .nan
  else
    match l.foldl
      (fun acc c =>
        match acc, radixDigitVal radix c with
        | some a, some d => some (a * radix + d)
        | _, _ => none)
      (some 0) with
    | some n => FP64.ofRat false n 1
    | none => .nan

/-- An unsigned decimal literal or the literal `Infinity`; anything else
is NaN. -/
def parseUnsignedDecimal (sign : Bool) (l : List Char) : FP64 :=
  if l = ['I', 'n', 'f', 'i', 'n', 'i', 't', 'y'] then .inf sign
  else
    match parseDecimal l with
    | some p => decimalToFP sign p.1 p.2
    | none => .nan

/-- A StrDecimalLiteral with its optional sign. -/
def parseSignedDecimal (l : List Char) : FP64 :=
  match l with
  | '+' :: r => parseUnsignedDecimal false r
  | '-' :: r => parseUnsignedDecimal true r
  | r => parseUnsignedDecimal false r

/-- The ECMAScript `ToNumber` coercion on strings: trim StrWhiteSpace,
empty input is `+0`, a `0x`/`0o`/`0b` prefix starts an unsigned
non-decimal integer literal, and otherwise an optionally signed decimal
literal or `Infinity`; anything else is NaN. -/
def jsStrToNumber (s : String) : FP64 :=
  let l1 := s.toList.dropWhile isStrWhiteSpace
  let cs := (l1.reverse.dropWhile isStrWhiteSpace).reverse
  match cs with
  | [] => .zero false
  | '0' :: c :: rest =>
    if c = 'x' ∨ c = 'X' then parseRadixAll 16 rest
    else if c = 'o' ∨ c = 'O' then parseRadixAll 8 rest
    else if c = 'b' ∨ c = 'B' then parseRadixAll 2 rest
    else parseSignedDecimal cs
  | _ => parseSignedDecimal cs

/-- The JS `Number(...)` coercion as used on environment values: the
identity on numbers, `1`/`+0` on booleans, the ToNumber string grammar on
strings. -/
def jsNumber : Value → FP64
  | .num d => d
  | .bool b => if b then FP64.ofNat 1 else FP64.zero false
  | .str s => jsStrToNumber s

/-- `Number(vx) op Number(vy)` for op one of add/sub/mul, in IEEE-754
binary64 arithmetic; the result is a JS number value. -/
def jsArith (op : String) (vx vy : Value) : Value :=
  .num
    (if op = "add" then FP64.add (jsNumber vx) (jsNumber vy)
     else if op = "sub" then FP64.sub (jsNumber vx) (jsNumber vy)
     else FP64.mul (jsNumber vx) (jsNumber vy))

/-- One step of the fold pass of `optimizeTrace` (lines 19-60): returns the
updated environment and the instructions pushed to `out` for this entry. -/
def foldStep (env : EnvT) (i : Instr) : EnvT × List Instr :=
  match i with
  | .label _ => (env, [])
  | .op o =>
    if o.op = "const" ∧ o.dest ≠ none then
      (mapSet env (o.dest.getD "") o.value, [i])
    else if (o.op = "add" ∨ o.op = "sub" ∨ o.op = "mul") ∧
        o.args ≠ none ∧ destTruthy o ≠ none then
      match bindGet env ((o.args.getD [])[0]?),
            bindGet env ((o.args.getD [])[1]?) with
      | some vx, some vy =>
        let val := jsArith o.op vx vy
        (mapSet env (o.dest.getD "") (some val),
         [.op
           { op := "const", dest := o.dest,
             type := some (o.type.getD "int"), value := some val }])
      | _, _ => (env, [i])
    else (env, [i])

/-- The whole fold pass, threading the environment left to right. -/
def foldGo (env : EnvT) : List Instr → List Instr
  | [] => []
  | i :: rest =>
    let s := foldStep env i
    s.2 ++ foldGo s.1 rest

/-- Second pass of `optimizeTrace` (lines 62-69): every variable name that
appears as an argument of any instruction of the folded output. -/
def collectUsed (out : List Instr) : List String :=
  out.foldl
    (fun acc i =>
      match i with
      | .op o =>
        match o.args with
        | some l => acc ++ l
        | none => acc
      | .label _ => acc)
    []

/-- The filter of the third (DCE) pass of `optimizeTrace` (lines 72-82):
`true` keeps the instruction. -/
def dceKeep (used : List String) (i : Instr) : Bool :=
  match i with
  | .op o =>
    match destTruthy o with
    | some d =>
      if d ∈ used then true
      else if o.op = "const" ∨ o.op = "add" ∨ o.op = "sub" ∨ o.op = "mul"
      then false
      else true
    | none => true
  | .label _ => true

/-- The Trace Reducer `optimizeTrace` (lines 13-83). -/
def optimizeTrace (instrs : List Instr) : List Instr :=
  let out := foldGo [] instrs
  out.filter (dceKeep (collectUsed out))

/-- The constant map built in `main` (lines 171-176) from the reduced
trace: destination of every `const` with a truthy `dest`, bound to its
(possibly absent) `value` field. -/
abbrev ConstMapT : Type := List (String × Option Value)

def buildConstMap (optimized : List Instr) : ConstMapT :=
  optimized.foldl
    (fun m i =>
      match i with
      | .op o =>
        if o.op = "const" ∧ destTruthy o ≠ none
        then mapSet m (o.dest.getD "") o.value
        else m
      | .label _ => m)
    []

/-- A synthesized boolean `const` instruction. -/
def synthConstBool (name : String) (b : Bool) : Instr :=
  .op
    { op := "const", dest := some name, type := some "bool",
      value := some (.bool b) }

/-- A `guard` on a variable targeting the bail label. -/
def guardOn (v : String) (bail : String) : Instr :=
  .op { op := "guard", args := some [v], labels := some [bail] }

/-- `typeof val === "boolean"` on a stored (possibly absent) value. -/
def jsTypeofIsBool : Option Value → Bool
  | some (.bool _) => true
  | _ => false

/-- `typeof val === "string"` on a stored (possibly absent) value. -/
def jsTypeofIsStr : Option Value → Bool
  | some (.str _) => true
  | _ => false

/-- The per-argument loop of the `print` case of Guard Lowering (lines
214-230): given the synth counter and the printed argument names, returns
the final counter, the synthesized instructions, and the `willAlwaysBail`
flag. -/
def lowerPrintArgs (cm : ConstMapT) (bail : String) :
    Nat → List String → Nat × List Instr × Bool
  | c, [] => (c, [], false)
  | c, a :: rest =>
    match mapGet cm a with
    | some val =>
      let constName := "_spec_exp_" ++ toString c
      let cInstr : Instr := .op
        { op := "const", dest := some constName,
          type := some (if jsTypeofIsBool val then "bool" else "int"),
          value := val }
      let cmpName := "_spec_cmp_" ++ toString (c + 1)
      let cmpInstr : Instr := .op
        { op := if jsTypeofIsStr val then "ceq" else "eq",
          dest := some cmpName, args := some [a, constName] }
      let t := lowerPrintArgs cm bail (c + 2) rest
      (t.1, cInstr :: cmpInstr :: guardOn cmpName bail :: t.2.1, t.2.2)
    | none =>
      let falseName := "_spec_false_" ++ toString c
      let t := lowerPrintArgs cm bail (c + 1) rest
      (t.1, synthConstBool falseName false :: guardOn falseName bail :: t.2.1,
       true)

/-- `ins.args?.[0]` followed by the truthiness test `if (!condVar)`. -/
def condArg (o : Operation) : Option String :=
  match (o.args.getD [])[0]? with
  | some s => if s = "" then none else some s
  | none => none

/-- The result of Guard Lowering: the guarded sequence and the
deferred-print queue. -/
structure LowerResult where
  guarded : List Instr
  prints : List Instr
deriving DecidableEq, Repr

/-- The Guard Lowering loop of `main` (lines 185-239), threading the synth
counter; `br` without a truthy condition argument raises. -/
def lowerGo (cm : ConstMapT) (bail : String) :
    Nat → List Instr → Except String LowerResult
  | _, [] => .ok { guarded := [], prints := [] }
  | c, i :: rest =>
    match i with
    | .label _ => lowerGo cm bail c rest
    | .op o =>
      if o.op = "jmp" then lowerGo cm bail c rest
      else if o.op = "call" ∨ o.op = "ret" then
        let falseName := "_spec_false_" ++ toString c
        .ok { guarded := [synthConstBool falseName false,
                          guardOn falseName bail],
              prints := [] }
      else if o.op = "br" then
        match condArg o with
        | some cond =>
          (lowerGo cm bail c rest).map
            (fun r => { r with guarded := guardOn cond bail :: r.guarded })
        | none => .error "br in trace without condition arg"
      else if o.op = "print" then
        let t := lowerPrintArgs cm bail c (o.args.getD [])
        (lowerGo cm bail t.1 rest).map
          (fun r =>
            { guarded := t.2.1 ++ r.guarded,
              prints := if t.2.2 then r.prints else i :: r.prints })
      else
        (lowerGo cm bail c rest).map
          (fun r => { r with guarded := i :: r.guarded })

/-- Guard Lowering of a reduced trace: constant map first, then the loop
with counter 0. -/
def lowerTrace (optimized : List Instr) (bail : String) :
    Except String LowerResult :=
  lowerGo (buildConstMap optimized) bail 0 optimized

/-- `guarded.some(ins => "op" in ins && ins.op === "guard")`. -/
def hasGuardIn (l : List Instr) : Bool :=
  l.any fun i =>
    match i with
    | .op o => o.op = "guard"
    | .label _ => false

/-- The test of the backward scan for a boolean destination (lines
272-284): a truthy `dest` whose `type` is exactly `"bool"`. -/
def isBoolDest (i : Instr) : Option String :=
  match i with
  | .op o =>
    match destTruthy o with
    | some d => if o.type = some "bool" then some d else none
    | none => none
  | .label _ => none

/-- The backward scan itself: the most recently defined boolean-typed
destination of the guarded sequence. -/
def lastBoolDest (l : List Instr) : Option String :=
  l.reverse.findSome? isBoolDest

def specInstr : Instr := .op { op := "speculate" }

def commitInstr : Instr := .op { op := "commit" }

def retInstr : Instr := .op { op := "ret" }

/-- The gating-guard synthesis of the Assembler (lines 265-308): nothing
when a guard is already present, else a guard on the last boolean
destination, else a trivially-true constant and a guard on it. -/
def gateGuard (guarded : List Instr) (bail : String) : List Instr :=
  if hasGuardIn guarded then []
  else
    match lastBoolDest guarded with
    | some d => [guardOn d bail]
    | none =>
      [.op
         { op := "const", dest := some "_spec_true_guard",
           type := some "bool", value := some (.bool true) },
       guardOn "_spec_true_guard" bail]

/-- `fallbackInstrs.length && last.op === "ret"` (lines 326-331). -/
def endsInRet (l : List Instr) : Bool :=
  match l.getLast? with
  | some (.op o) => o.op = "ret"
  | _ => false

/-- The fallback body: the original instructions, with a `ret` appended
when they do not already end in one (lines 325-334). -/
def fallbackOf (body : List Instr) : List Instr :=
  if endsInRet body then body else body ++ [retInstr]

/-- The Speculative Assembler (lines 259-335): `speculate`, the guarded
sequence, the gating guard, `commit`, the deferred prints, `ret`, the bail
label, the terminated fallback. -/
def assembleMain (guarded prints fallback : List Instr) (bail : String) :
    List Instr :=
  specInstr :: (guarded ++ gateGuard guarded bail) ++
    commitInstr :: (prints ++ retInstr :: Instr.label bail ::
      fallbackOf fallback)

/-- The whole pipeline of `main` on an already-parsed trace and program
(lines 164-345): reduce, lower, find `main`, assemble, replace `main`
in place. -/
def buildSpec (trace : List Instr) (prog : Program) :
    Except String Program :=
  let bail := ".bail"
  let optimized := optimizeTrace trace
  match lowerTrace optimized bail with
  | .error e => .error e
  | .ok r =>
    match prog.functions.findIdx? (fun f => f.name == "main") with
    | none => .error "No main function found"
    | some idx =>
      match prog.functions[idx]? with
      | none => .error "No main function found"
      | some origMain =>
        let newMain : Func :=
          { origMain with
            instrs := assembleMain r.guarded r.prints origMain.instrs bail }
        .ok { prog with functions := prog.functions.set idx newMain }

/-- Discriminator between operation entries and label entries. -/
def isOpInstr : Instr → Bool
  | .op _ => true
  | .label _ => false

/-- The trace of the spec scenario: const a=3; const b=4; add c=a,b;
print c. -/
def scenarioTrace : List Instr :=
  [.op { op := "const", dest := some "a", type := some "int",
         value := some (.num (FP64.ofNat 3)) },
   .op { op := "const", dest := some "b", type := some "int",
         value := some (.num (FP64.ofNat 4)) },
   .op { op := "add", dest := some "c", type := some "int",
         args := some ["a", "b"] },
   .op { op := "print", args := some ["c"] }]

/-- A program whose `main` body is the scenario trace itself. -/
def scenarioProg : Program :=
  { functions := [{ name := "main", instrs := scenarioTrace }] }

/-- A two-function program used to exercise the frame property of the
rewrite: an auxiliary function ahead of `main`. -/
def frameProg : Program :=
  { functions :=
      [{ name := "aux", instrs := [retInstr] },
       { name := "main", args := some [{ name := "n", type := "int" }],
         type := some "int", instrs := [retInstr] }] }

/-- A one-instruction trace whose constant is dead (dropped by the
Reducer). -/
def frameTrace : List Instr :=
  [.op { op := "const", dest := some "x", type := some "int",
         value := some (.num (FP64.ofNat 1)) }]

/-! ## Helper lemmas -/

theorem destTruthy_eq_some {o : Operation} {d : String} :
    destTruthy o = some d ↔ o.dest = some d ∧ d ≠ "" := by
  unfold destTruthy
  cases h : o.dest with
  | none => simp
  | some d2 =>
    by_cases hd2 : d2 = ""
    · subst hd2
      simp only [if_pos rfl]
      constructor
      · intro hc
        cases hc
      · rintro ⟨hc, hne⟩
        injection hc with hc2
        exact (hne hc2.symm).elim
    · simp only [if_neg hd2]
      constructor
      · intro h2
        refine ⟨h2, ?_⟩
        injection h2 with h3
        rw [← h3]
        exact hd2
      · exact fun h2 => h2.1

theorem dceKeep_eq_false_iff (used : List String) (i : Instr) :
    dceKeep used i = false ↔
      ∃ o d, i = .op o ∧ destTruthy o = some d ∧ d ∉ used ∧
        (o.op = "const" ∨ o.op = "add" ∨ o.op = "sub" ∨ o.op = "mul") := by
  cases i with
  | label s => simp [dceKeep]
  | op o =>
    cases hdt : destTruthy o with
    | none => simp [dceKeep, hdt]
    | some d =>
      by_cases hu : d ∈ used
      · simp [dceKeep, hdt, hu]
      · by_cases hops :
          o.op = "const" ∨ o.op = "add" ∨ o.op = "sub" ∨ o.op = "mul"
        · simp [dceKeep, hdt, hu, hops]
        · simp [dceKeep, hdt, hu, hops]

/-! ## C1: the fold pass on add/sub/mul -/

/-- Claim C1: in the fold pass of the Trace Reducer, an `add`/`sub`/`mul`
instruction whose two argument names are both bound in the constant
environment is replaced by a `const` holding the operator applied to the
two operand values under the JS-number arithmetic model, and its
destination is bound in the environment; when at least one argument is
not bound, the instruction is kept unmodified and the environment is left
unchanged. -/
theorem fold_const_replacement (env : EnvT) (o : Operation) (x y : String)
    (rest : List String) (d : String)
    (hop : o.op = "add" ∨ o.op = "sub" ∨ o.op = "mul")
    (hargs : o.args = some (x :: y :: rest))
    (hdest : destTruthy o = some d) :
    (∀ vx vy, envGet env x = some vx → envGet env y = some vy →
      foldStep env (.op o) =
        (mapSet env d (some (jsArith o.op vx vy)),
         [.op
           { op := "const", dest := some d,
             type := some (o.type.getD "int"),
             value := some (jsArith o.op vx vy) }]))
    ∧ ((envGet env x = none ∨ envGet env y = none) →
        foldStep env (.op o) = (env, [.op o])) := by
  have hd : o.dest = some d := (destTruthy_eq_some.mp hdest).1
  obtain ⟨oop, odest, otype, oargs, oval, olabs, ofuncs⟩ := o
  simp only [Operation.op] at hop
  simp only [Operation.args] at hargs
  simp only [Operation.dest] at hd
  subst hargs
  subst hd
  constructor
  · intro vx vy h1 h2
    rcases hop with h | h | h <;> subst h <;>
      simp [foldStep, bindGet, h1, h2, hdest]
  · intro h12
    rcases h12 with h1 | h1
    · rcases hop with h | h | h <;> subst h <;>
        cases hy : envGet env y <;>
          simp [foldStep, bindGet, h1, hy, hdest]
    · rcases hop with h | h | h <;> subst h <;>
        cases hx : envGet env x <;>
          simp [foldStep, bindGet, h1, hx, hdest]

/-- Witness for C1 at a concrete environment and instruction. -/
theorem fold_const_replacement_witness :
    foldStep [("a", some (Value.num (FP64.ofNat 3))), ("b", some (Value.num (FP64.ofNat 4)))]
      (.op { op := "add", dest := some "c", type := some "int",
             args := some ["a", "b"] }) =
      ([("c", some (Value.num (FP64.ofNat 7))), ("a", some (Value.num (FP64.ofNat 3))),
        ("b", some (Value.num (FP64.ofNat 4)))],
       [.op
         { op := "const", dest := some "c", type := some "int",
           value := some (Value.num (FP64.ofNat 7)) }]) := by
  have h :=
    (fold_const_replacement
      [("a", some (Value.num (FP64.ofNat 3))), ("b", some (Value.num (FP64.ofNat 4)))]
      { op := "add", dest := some "c", type := some "int",
        args := some ["a", "b"] }
      "a" "b" [] "c" (Or.inl rfl) rfl rfl).1
      (Value.num (FP64.ofNat 3)) (Value.num (FP64.ofNat 4)) rfl rfl
  rw [h]
  decide

/-! ## C2: the dead-assignment filter -/

/-- Claim C2: the DCE filter of the Trace Reducer drops an instruction of the
folded output exactly when it has a (truthy) destination absent from the
used set and its opcode is one of const/add/sub/mul; consequently no
print, call, ret, guard, speculate or commit instruction is ever dropped,
whatever its destination. -/
theorem dce_drop_iff (t : List Instr) (i : Instr)
    (hi : i ∈ foldGo [] t) :
    (i ∉ optimizeTrace t ↔
      ∃ o d, i = .op o ∧ destTruthy o = some d ∧
        d ∉ collectUsed (foldGo [] t) ∧
        (o.op = "const" ∨ o.op = "add" ∨ o.op = "sub" ∨ o.op = "mul"))
    ∧ (∀ o, i = .op o →
        (o.op = "print" ∨ o.op = "call" ∨ o.op = "ret" ∨ o.op = "guard" ∨
         o.op = "speculate" ∨ o.op = "commit") →
        i ∈ optimizeTrace t) := by
  have hopt : optimizeTrace t =
      (foldGo [] t).filter (dceKeep (collectUsed (foldGo [] t))) := rfl
  constructor
  · rw [hopt, List.mem_filter, ← dceKeep_eq_false_iff]
    constructor
    · intro h
      cases hk : dceKeep (collectUsed (foldGo [] t)) i
      · rfl
      · exact absurd ⟨hi, hk⟩ h
    · intro hk h2
      rw [h2.2] at hk
      cases hk
  · intro o ho hops
    rw [hopt, List.mem_filter]
    refine ⟨hi, ?_⟩
    subst ho
    have hnot : ¬ (o.op = "const" ∨ o.op = "add" ∨ o.op = "sub" ∨
        o.op = "mul") := by
      rcases hops with h | h | h | h | h | h <;> simp [h]
    cases hk : dceKeep (collectUsed (foldGo [] t)) (.op o) with
    | true => rfl
    | false =>
      obtain ⟨o2, d, ho2, _, _, hops4⟩ := (dceKeep_eq_false_iff _ _).mp hk
      injection ho2 with h3
      subst h3
      exact absurd hops4 hnot

/-- Witness for C2: a dead constant is dropped, a print survives. -/
theorem dce_drop_iff_witness :
    Instr.op { op := "const", dest := some "a", type := some "int",
               value := some (Value.num (FP64.ofNat 3)) } ∉
      optimizeTrace
        [.op { op := "const", dest := some "a", type := some "int",
               value := some (Value.num (FP64.ofNat 3)) }] := by
  have h :=
    (dce_drop_iff
      [.op { op := "const", dest := some "a", type := some "int",
             value := some (Value.num (FP64.ofNat 3)) }]
      (.op { op := "const", dest := some "a", type := some "int",
             value := some (Value.num (FP64.ofNat 3)) })
      (by decide)).1
  exact h.mpr ⟨_, "a", rfl, by decide, by decide, by decide⟩

/-! ## C5: the gating invariant of the Assembler -/

theorem hasGuardIn_append (a b : List Instr) :
    hasGuardIn (a ++ b) = (hasGuardIn a || hasGuardIn b) := by
  simp [hasGuardIn, List.any_append]

/-- Claim C5: the assembled body is the speculate marker, the guarded sequence
extended by the gating guard, the commit marker, then the rest; the
segment between the two markers always contains a guard; no extra guard is
added when the guarded sequence already has one; otherwise the guard is on
the most recently defined boolean destination, or on a synthesized true
constant if there is none. -/
theorem gating_invariant (guarded prints fallback : List Instr)
    (bail : String) :
    assembleMain guarded prints fallback bail =
      specInstr :: (guarded ++ gateGuard guarded bail) ++
        commitInstr :: (prints ++ retInstr :: Instr.label bail ::
          fallbackOf fallback)
    ∧ hasGuardIn (guarded ++ gateGuard guarded bail) = true
    ∧ (hasGuardIn guarded = true → gateGuard guarded bail = [])
    ∧ (∀ d, hasGuardIn guarded = false → lastBoolDest guarded = some d →
        gateGuard guarded bail = [guardOn d bail])
    ∧ (hasGuardIn guarded = false → lastBoolDest guarded = none →
        gateGuard guarded bail =
          [.op
             { op := "const", dest := some "_spec_true_guard",
               type := some "bool", value := some (.bool true) },
           guardOn "_spec_true_guard" bail]) := by
  refine ⟨rfl, ?_, ?_, ?_, ?_⟩
  · rw [hasGuardIn_append]
    cases hg : hasGuardIn guarded with
    | true => rfl
    | false =>
      simp only [Bool.false_or, gateGuard, hg, Bool.false_eq_true, if_neg]
      cases hl : lastBoolDest guarded <;>
        simp [hasGuardIn, guardOn]
  · intro h
    simp [gateGuard, h]
  · intro d h hl
    simp [gateGuard, h, hl]
  · intro h hl
    simp [gateGuard, h, hl]

/-- Witness for C5 on an empty guarded sequence: the synthesized
true-guard makes the speculate/commit segment contain a guard. -/
theorem gating_invariant_witness :
    hasGuardIn ([] ++ gateGuard [] ".bail") = true :=
  (gating_invariant [] [] [] ".bail").2.1

/-! ## C6: totality of the fallback path -/

/-- Claim C6: the assembled body ends with the bail label followed by the
fallback block; that block is the original body with a `ret` appended
exactly when the original body does not already end in a `ret`, and it
always ends in a `ret`. -/
theorem fallback_totality (guarded prints fallback : List Instr)
    (bail : String) :
    (∃ pre, assembleMain guarded prints fallback bail =
        pre ++ Instr.label bail :: fallbackOf fallback)
    ∧ fallbackOf fallback =
        (if endsInRet fallback then fallback else fallback ++ [retInstr])
    ∧ endsInRet (fallbackOf fallback) = true := by
  refine ⟨⟨specInstr :: (guarded ++ gateGuard guarded bail) ++
      commitInstr :: (prints ++ [retInstr]), ?_⟩, rfl, ?_⟩
  · simp [assembleMain]
  · cases h : endsInRet fallback with
    | true => rw [fallbackOf, if_pos h, h]
    | false =>
      rw [fallbackOf, if_neg (by simp [h])]
      simp [endsInRet, List.getLast?_append_cons, retInstr]

/-! ## C7: branch lowering and the only fatal shape -/

theorem exceptMap_ok_iff {ε α β : Type} (f : α → β) (e : Except ε α)
    (b : β) : e.map f = .ok b ↔ ∃ a, e = .ok a ∧ f a = b := by
  cases e <;> simp [Except.map]

/-- Claim C7: Guard Lowering replaces a `br` carrying a (truthy) condition
argument by a guard on that condition targeting the bail label; a `br`
without one makes the whole lowering fail with an error; and on any trace
whose `br` instructions all carry a condition the lowering never fails, so
this is the only instruction shape on which it raises. -/
theorem br_guard_or_error (cm : ConstMapT) (bail : String) (c : Nat)
    (o : Operation) (rest : List Instr) :
    (o.op = "br" →
      (∀ cond, condArg o = some cond →
        lowerGo cm bail c (.op o :: rest) =
          (lowerGo cm bail c rest).map
            (fun r => { r with guarded := guardOn cond bail :: r.guarded }))
      ∧ (condArg o = none →
        lowerGo cm bail c (.op o :: rest) =
          .error "br in trace without condition arg"))
    ∧ (∀ t : List Instr,
        (∀ o2, Instr.op o2 ∈ t → o2.op = "br" → condArg o2 ≠ none) →
        ∃ r, lowerGo cm bail c t = .ok r) := by
  constructor
  · intro hbr
    constructor
    · intro cond hc
      simp [lowerGo, hbr, hc]
    · intro hc
      simp [lowerGo, hbr, hc]
  · intro t
    induction t generalizing c with
    | nil => exact fun _ => ⟨_, rfl⟩
    | cons i rest2 ih =>
      intro h
      cases i with
      | label s =>
        obtain ⟨r, hr⟩ := ih c fun o3 hm => h o3 (List.mem_cons_of_mem _ hm)
        exact ⟨r, by simpa [lowerGo] using hr⟩
      | op o2 =>
        have hrest : ∀ o3, Instr.op o3 ∈ rest2 → o3.op = "br" →
            condArg o3 ≠ none :=
          fun o3 hm => h o3 (List.mem_cons_of_mem _ hm)
        by_cases hjmp : o2.op = "jmp"
        · obtain ⟨r, hr⟩ := ih c hrest
          exact ⟨r, by simpa [lowerGo, hjmp] using hr⟩
        · by_cases hcall : o2.op = "call" ∨ o2.op = "ret"
          · exact ⟨{ guarded := [synthConstBool ("_spec_false_" ++ toString c) false,
                                 guardOn ("_spec_false_" ++ toString c) bail],
                     prints := [] },
                   by simp [lowerGo, hjmp, hcall]⟩
          · by_cases hbr : o2.op = "br"
            · have hca : condArg o2 ≠ none :=
                h o2 (List.mem_cons_self _ _) hbr
              cases hcond : condArg o2 with
              | none => exact absurd hcond hca
              | some cond =>
                obtain ⟨r, hr⟩ := ih c hrest
                exact ⟨{ r with guarded := guardOn cond bail :: r.guarded },
                  by simp [lowerGo, hjmp, hcall, hbr, hcond, hr, Except.map]⟩
            · by_cases hpr : o2.op = "print"
              · obtain ⟨r, hr⟩ :=
                  ih (lowerPrintArgs cm bail c (o2.args.getD [])).1 hrest
                refine ⟨⟨(lowerPrintArgs cm bail c (o2.args.getD [])).2.1 ++
                    r.guarded,
                  if (lowerPrintArgs cm bail c (o2.args.getD [])).2.2
                  then r.prints else .op o2 :: r.prints⟩, ?_⟩
                simp only [lowerGo, if_neg hjmp, if_neg hcall, if_neg hbr,
                  if_pos hpr, hr, Except.map]
              · obtain ⟨r, hr⟩ := ih c hrest
                exact ⟨{ r with guarded := .op o2 :: r.guarded },
                  by simp [lowerGo, hjmp, hcall, hbr, hpr, hr, Except.map]⟩

/-- Witness for C7: a conditional branch becomes a guard on its condition
targeting the bail label. -/
theorem br_guard_or_error_witness :
    lowerGo [] ".bail" 0
      [.op { op := "br", args := some ["b"],
             labels := some [".then", ".else"] }] =
      .ok { guarded := [guardOn "b" ".bail"], prints := [] } := by
  have h := ((br_guard_or_error [] ".bail" 0
      { op := "br", args := some ["b"],
        labels := some [".then", ".else"] } []).1 rfl).1 "b" rfl
  simpa [lowerGo, Except.map] using h

/-! ## C4: truncation at the first call/ret -/

/-- Claim C4: when the trace is a call/ret-free prefix followed by a `call` or
`ret` and anything after it, Guard Lowering produces the lowering of the
prefix extended by a synthesized false constant and an unconditional
guard, and nothing else: the guarded sequence ends with that pair and
every instruction from the call/ret on contributes nothing. -/
theorem callret_truncation (cm : ConstMapT) (bail : String) (c : Nat)
    (t1 t2 : List Instr) (o : Operation) (r1 : LowerResult)
    (hco : o.op = "call" ∨ o.op = "ret")
    (h1 : ∀ o2, Instr.op o2 ∈ t1 → o2.op ≠ "call" ∧ o2.op ≠ "ret")
    (hok : lowerGo cm bail c t1 = .ok r1) :
    ∃ n : Nat, lowerGo cm bail c (t1 ++ .op o :: t2) =
      .ok { guarded := r1.guarded ++
              [synthConstBool ("_spec_false_" ++ toString n) false,
               guardOn ("_spec_false_" ++ toString n) bail],
            prints := r1.prints } := by
  induction t1 generalizing c r1 with
  | nil =>
    refine ⟨c, ?_⟩
    simp only [lowerGo] at hok
    injection hok with hok2
    subst hok2
    rcases hco with h | h <;> simp [lowerGo, h]
  | cons i t1 ih =>
    have hrest : ∀ o2, Instr.op o2 ∈ t1 → o2.op ≠ "call" ∧ o2.op ≠ "ret" :=
      fun o2 hm => h1 o2 (List.mem_cons_of_mem _ hm)
    cases i with
    | label s =>
      simp only [lowerGo] at hok
      obtain ⟨n, hn⟩ := ih c r1 hrest hok
      exact ⟨n, by simpa [lowerGo] using hn⟩
    | op o2 =>
      have hne := h1 o2 (List.mem_cons_self _ _)
      by_cases hjmp : o2.op = "jmp"
      · simp only [lowerGo, if_pos hjmp] at hok
        obtain ⟨n, hn⟩ := ih c r1 hrest hok
        exact ⟨n, by simpa [lowerGo, hjmp] using hn⟩
      · have hcall2 : ¬ (o2.op = "call" ∨ o2.op = "ret") := by
          rintro (h | h)
          · exact hne.1 h
          · exact hne.2 h
        by_cases hbr : o2.op = "br"
        · cases hcond : condArg o2 with
          | none =>
            rw [lowerGo] at hok
            simp [if_neg hjmp, if_neg hcall2, if_pos hbr, hcond] at hok
          | some cond =>
            rw [lowerGo] at hok
            simp only [if_neg hjmp, if_neg hcall2, if_pos hbr, hcond] at hok
            obtain ⟨r0, hr0, hfr⟩ := (exceptMap_ok_iff _ _ _).mp hok
            subst hfr
            obtain ⟨n, hn⟩ := ih c r0 hrest hr0
            refine ⟨n, ?_⟩
            simp [lowerGo, hjmp, hcall2, hbr, hcond, hn, Except.map,
              List.cons_append]
        · by_cases hpr : o2.op = "print"
          · rw [lowerGo] at hok
            simp only [if_neg hjmp, if_neg hcall2, if_neg hbr,
              if_pos hpr] at hok
            obtain ⟨r0, hr0, hfr⟩ := (exceptMap_ok_iff _ _ _).mp hok
            subst hfr
            obtain ⟨n, hn⟩ :=
              ih (lowerPrintArgs cm bail c (o2.args.getD [])).1 r0 hrest hr0
            refine ⟨n, ?_⟩
            simp only [List.cons_append, lowerGo, if_neg hjmp, if_neg hcall2,
              if_neg hbr, if_pos hpr, Except.map, List.append_eq]
            rw [hn]
            simp [List.append_assoc]
          · rw [lowerGo] at hok
            simp only [if_neg hjmp, if_neg hcall2, if_neg hbr,
              if_neg hpr] at hok
            obtain ⟨r0, hr0, hfr⟩ := (exceptMap_ok_iff _ _ _).mp hok
            subst hfr
            obtain ⟨n, hn⟩ := ih c r0 hrest hr0
            refine ⟨n, ?_⟩
            simp [lowerGo, hjmp, hcall2, hbr, hpr, hn, Except.map,
              List.cons_append]

/-- Witness for C4: a one-instruction prefix followed by a `ret` lowers to
the prefix plus a false constant and an unconditional guard, with the
print recorded after the `ret` absent from the output. -/
theorem callret_truncation_witness :
    ∃ n : Nat, lowerGo [] ".bail" 0
      ([.op { op := "id", dest := some "x", type := some "int",
              args := some ["y"] }] ++
        .op { op := "ret" } ::
          [.op { op := "print", args := some ["x"] }]) =
      .ok { guarded := [.op { op := "id", dest := some "x",
                              type := some "int", args := some ["y"] }] ++
              [synthConstBool ("_spec_false_" ++ toString n) false,
               guardOn ("_spec_false_" ++ toString n) ".bail"],
            prints := [] } :=
  callret_truncation [] ".bail" 0
    [.op { op := "id", dest := some "x", type := some "int",
           args := some ["y"] }]
    [.op { op := "print", args := some ["x"] }]
    { op := "ret" }
    { guarded := [.op { op := "id", dest := some "x", type := some "int",
                        args := some ["y"] }], prints := [] }
    (Or.inr rfl)
    (by
      intro o2 hm
      simp only [List.mem_singleton] at hm
      injection hm with hm2
      subst hm2
      exact ⟨by decide, by decide⟩)
    (by simp [lowerGo, Except.map])

/-! ## C3: print lowering and deferred-print queueing -/

/-- Claim C3: in Guard Lowering, a print argument with a recorded constant gets
a synthesized `const` holding the recorded literal, a comparison (`ceq`
for textual literals, `eq` otherwise) between the live argument and that
constant, and a guard on the comparison; an argument with no recorded
constant gets a synthesized false constant and an unconditional guard and
marks the print as always-bailing.  The always-bail flag holds exactly
when some argument has no recorded constant, and the original print is
put at the head of the deferred-print queue exactly when the flag is
clear, preserving output order. -/
theorem print_guard_lowering (cm : ConstMapT) (bail : String) (c : Nat)
    (args : List String) :
    ((lowerPrintArgs cm bail c args).2.2 = true ↔
      ∃ a ∈ args, mapGet cm a = none)
    ∧ (∀ a rest2, args = a :: rest2 →
        (∀ val, mapGet cm a = some val →
          lowerPrintArgs cm bail c args =
            ((lowerPrintArgs cm bail (c + 2) rest2).1,
             .op
               { op := "const", dest := some ("_spec_exp_" ++ toString c),
                 type := some (if jsTypeofIsBool val then "bool" else "int"),
                 value := val } ::
               .op
                 { op := if jsTypeofIsStr val then "ceq" else "eq",
                   dest := some ("_spec_cmp_" ++ toString (c + 1)),
                   args := some [a, "_spec_exp_" ++ toString c] } ::
               guardOn ("_spec_cmp_" ++ toString (c + 1)) bail ::
                 (lowerPrintArgs cm bail (c + 2) rest2).2.1,
             (lowerPrintArgs cm bail (c + 2) rest2).2.2))
        ∧ (mapGet cm a = none →
          lowerPrintArgs cm bail c args =
            ((lowerPrintArgs cm bail (c + 1) rest2).1,
             synthConstBool ("_spec_false_" ++ toString c) false ::
               guardOn ("_spec_false_" ++ toString c) bail ::
                 (lowerPrintArgs cm bail (c + 1) rest2).2.1,
             true)))
    ∧ (∀ o rest r, o.op = "print" → o.args = some args →
        lowerGo cm bail c (.op o :: rest) = .ok r →
        ∃ r2, lowerGo cm bail (lowerPrintArgs cm bail c args).1 rest = .ok r2
          ∧ r.guarded = (lowerPrintArgs cm bail c args).2.1 ++ r2.guarded
          ∧ r.prints = (if (lowerPrintArgs cm bail c args).2.2 then r2.prints
                        else .op o :: r2.prints)) := by
  refine ⟨?_, ?_, ?_⟩
  · induction args generalizing c with
    | nil => simp [lowerPrintArgs]
    | cons a rest ih =>
      cases ha : mapGet cm a with
      | some val => simp [lowerPrintArgs, ha, ih (c + 2)]
      | none =>
        simp only [lowerPrintArgs, ha]
        constructor
        · exact fun _ => ⟨a, List.mem_cons_self _ _, ha⟩
        · exact fun _ => trivial
  · rintro a rest2 rfl
    constructor
    · intro val hval
      simp [lowerPrintArgs, hval, guardOn]
    · intro hval
      simp [lowerPrintArgs, hval, guardOn]
  · intro o rest r hpo hargs hok
    have hjmp : ¬ o.op = "jmp" := by rw [hpo]; decide
    have hcall : ¬ (o.op = "call" ∨ o.op = "ret") := by
      rw [hpo]
      decide
    have hbr : ¬ o.op = "br" := by rw [hpo]; decide
    rw [lowerGo] at hok
    simp only [if_neg hjmp, if_neg hcall, if_neg hbr, if_pos hpo,
      hargs, Option.getD_some] at hok
    obtain ⟨r2, hr2, hfr⟩ := (exceptMap_ok_iff _ _ _).mp hok
    subst hfr
    exact ⟨r2, hr2, rfl, rfl⟩

/-- Witness for C3: a print of one known and one unknown argument is
marked always-bailing. -/
theorem print_guard_lowering_witness :
    (lowerPrintArgs [("p", some (Value.num (FP64.ofNat 5)))] ".bail" 0
      ["p", "q"]).2.2 = true :=
  (print_guard_lowering [("p", some (Value.num (FP64.ofNat 5)))] ".bail" 0
    ["p", "q"]).1.mpr ⟨"q", by decide, by decide⟩

/-! ## C10: label entries are skipped, not fatal -/

theorem foldGo_filter (env : EnvT) (t : List Instr) :
    foldGo env (t.filter isOpInstr) = foldGo env t := by
  induction t generalizing env with
  | nil => rfl
  | cons i rest ih =>
    cases i with
    | label s => simp [List.filter, isOpInstr, foldGo, foldStep, ih]
    | op o => simp [List.filter, isOpInstr, foldGo, ih]

theorem foldStep_out_isOp (env : EnvT) (o : Operation) :
    ∀ i ∈ (foldStep env (.op o)).2, isOpInstr i = true := by
  intro i hi
  rw [foldStep] at hi
  split at hi
  · simp only [List.mem_singleton] at hi
    subst hi
    rfl
  · split at hi
    · split at hi
      · simp only [List.mem_singleton] at hi
        subst hi
        rfl
      · simp only [List.mem_singleton] at hi
        subst hi
        rfl
    · simp only [List.mem_singleton] at hi
      subst hi
      rfl

theorem foldGo_no_label (env : EnvT) (t : List Instr) (i : Instr)
    (hi : i ∈ foldGo env t) : isOpInstr i = true := by
  induction t generalizing env with
  | nil => cases hi
  | cons j rest ih =>
    cases j with
    | label s => exact ih _ (by simpa [foldGo, foldStep] using hi)
    | op o =>
      rw [foldGo] at hi
      rcases List.mem_append.mp hi with h | h
      · exact foldStep_out_isOp env o i h
      · exact ih _ h

theorem lowerGo_filter (cm : ConstMapT) (bail : String) (t : List Instr) :
    ∀ c, lowerGo cm bail c (t.filter isOpInstr) = lowerGo cm bail c t := by
  induction t with
  | nil => intro c; rfl
  | cons i rest ih =>
    intro c
    cases i with
    | label s => simp [List.filter, isOpInstr, lowerGo, ih]
    | op o =>
      simp only [List.filter, isOpInstr]
      by_cases hjmp : o.op = "jmp"
      · simp [lowerGo, hjmp, ih]
      · by_cases hcall : o.op = "call" ∨ o.op = "ret"
        · simp [lowerGo, hjmp, hcall]
        · by_cases hbr : o.op = "br"
          · cases hcond : condArg o with
            | none => simp [lowerGo, hjmp, hcall, hbr, hcond]
            | some cond => simp [lowerGo, hjmp, hcall, hbr, hcond, ih]
          · by_cases hpr : o.op = "print"
            · simp [lowerGo, hjmp, hcall, hbr, hpr, ih]
            · simp [lowerGo, hjmp, hcall, hbr, hpr, ih]

theorem lowerPrintArgs_out_isOp (cm : ConstMapT) (bail : String)
    (args : List String) :
    ∀ c i, i ∈ (lowerPrintArgs cm bail c args).2.1 → isOpInstr i = true := by
  induction args with
  | nil => intro c i hi; cases hi
  | cons a rest ih =>
    intro c i hi
    cases ha : mapGet cm a with
    | some val =>
      simp only [lowerPrintArgs, ha, List.mem_cons] at hi
      rcases hi with hi | hi | hi | hi
      · subst hi; rfl
      · subst hi; rfl
      · subst hi; rfl
      · exact ih (c + 2) i hi
    | none =>
      simp only [lowerPrintArgs, ha, List.mem_cons] at hi
      rcases hi with hi | hi | hi
      · subst hi; rfl
      · subst hi; rfl
      · exact ih (c + 1) i hi

theorem lowerGo_guarded_isOp (cm : ConstMapT) (bail : String)
    (t : List Instr) :
    ∀ c r, lowerGo cm bail c t = .ok r →
      ∀ i ∈ r.guarded, isOpInstr i = true := by
  induction t with
  | nil =>
    intro c r hr i hi
    simp only [lowerGo] at hr
    injection hr with hr2
    subst hr2
    cases hi
  | cons j rest ih =>
    intro c r hr i hi
    cases j with
    | label s => exact ih c r (by simpa [lowerGo] using hr) i hi
    | op o =>
      by_cases hjmp : o.op = "jmp"
      · exact ih c r (by simpa [lowerGo, hjmp] using hr) i hi
      · by_cases hcall : o.op = "call" ∨ o.op = "ret"
        · rw [lowerGo] at hr
          simp only [if_neg hjmp, if_pos hcall] at hr
          injection hr with hr2
          subst hr2
          simp only [List.mem_cons, List.mem_singleton] at hi
          rcases hi with hi | hi | hi
          · subst hi; rfl
          · subst hi; rfl
          · cases hi
        · by_cases hbr : o.op = "br"
          · cases hcond : condArg o with
            | none =>
              rw [lowerGo] at hr
              simp [if_neg hjmp, if_neg hcall, if_pos hbr, hcond] at hr
            | some cond =>
              rw [lowerGo] at hr
              simp only [if_neg hjmp, if_neg hcall, if_pos hbr,
                hcond] at hr
              obtain ⟨r0, hr0, hfr⟩ := (exceptMap_ok_iff _ _ _).mp hr
              subst hfr
              simp only [List.mem_cons] at hi
              rcases hi with hi | hi
              · subst hi; rfl
              · exact ih c r0 hr0 i hi
          · by_cases hpr : o.op = "print"
            · rw [lowerGo] at hr
              simp only [if_neg hjmp, if_neg hcall, if_neg hbr,
                if_pos hpr] at hr
              obtain ⟨r0, hr0, hfr⟩ := (exceptMap_ok_iff _ _ _).mp hr
              subst hfr
              simp only [List.mem_append] at hi
              rcases hi with hi | hi
              · exact lowerPrintArgs_out_isOp cm bail _ _ i hi
              · exact ih _ r0 hr0 i hi
            · rw [lowerGo] at hr
              simp only [if_neg hjmp, if_neg hcall, if_neg hbr,
                if_neg hpr] at hr
              obtain ⟨r0, hr0, hfr⟩ := (exceptMap_ok_iff _ _ _).mp hr
              subst hfr
              simp only [List.mem_cons] at hi
              rcases hi with hi | hi
              · subst hi; rfl
              · exact ih c r0 hr0 i hi

/-- Claim C10: both the Trace Reducer and Guard Lowering are unchanged when
label entries are removed from the input (so a label never aborts the run
and never affects the output), no label entry appears in the reduced
trace, and no label entry appears in the guarded sequence of a successful
lowering. -/
theorem labels_skipped (t : List Instr) (cm : ConstMapT) (bail : String)
    (c : Nat) :
    optimizeTrace (t.filter isOpInstr) = optimizeTrace t
    ∧ (∀ s, Instr.label s ∉ optimizeTrace t)
    ∧ lowerGo cm bail c (t.filter isOpInstr) = lowerGo cm bail c t
    ∧ (∀ r, lowerGo cm bail c t = .ok r →
        ∀ s, Instr.label s ∉ r.guarded) := by
  refine ⟨?_, ?_, lowerGo_filter cm bail t c, ?_⟩
  · simp [optimizeTrace, foldGo_filter]
  · intro s h
    have h2 := List.mem_of_mem_filter h
    have h3 := foldGo_no_label [] t (Instr.label s) h2
    simp [isOpInstr] at h3
  · intro r hr s h
    have h3 := lowerGo_guarded_isOp cm bail t c r hr (Instr.label s) h
    simp [isOpInstr] at h3

/-- Witness for C10: a trace consisting of a label and a print reduces
without the label and without failing. -/
theorem labels_skipped_witness :
    Instr.label "somewhere" ∉
      optimizeTrace [Instr.label "somewhere",
        .op { op := "print", args := some ["v"] }] :=
  (labels_skipped [Instr.label "somewhere",
    .op { op := "print", args := some ["v"] }] [] ".bail" 0).2.1 "somewhere"

/-! ## C8: the spec scenario, corrected -/

/-- Counterexample to C8: on the scenario trace the Reducer does not keep
all four instructions (the fold rewrites the `add` into `const c=7`,
leaving `a` and `b` dead, and the DCE pass drops their constants). -/
theorem scenario_counterexample :
    optimizeTrace scenarioTrace ≠ scenarioTrace := by
  decide

/-- Claim C8 as amended: the Reducer reduces the scenario trace to
[const c:int=7, print c]; Guard Lowering emits const _spec_exp_0:int=7,
eq _spec_cmp_1=c,_spec_exp_0 and guard _spec_cmp_1 -> .bail and queues the
print; the assembled main body is speculate; const c=7; const
_spec_exp_0=7; eq _spec_cmp_1=c,_spec_exp_0; guard _spec_cmp_1 .bail;
commit; print c; ret; the .bail label; the original main body; ret. -/
theorem scenario_actual :
    optimizeTrace scenarioTrace =
      [.op { op := "const", dest := some "c", type := some "int",
             value := some (.num (FP64.ofNat 7)) },
       .op { op := "print", args := some ["c"] }]
    ∧ buildSpec scenarioTrace scenarioProg =
      .ok { functions :=
        [{ name := "main", instrs :=
            [specInstr,
             .op { op := "const", dest := some "c", type := some "int",
                   value := some (.num (FP64.ofNat 7)) },
             .op { op := "const", dest := some "_spec_exp_0",
                   type := some "int", value := some (.num (FP64.ofNat 7)) },
             .op { op := "eq", dest := some "_spec_cmp_1",
                   args := some ["c", "_spec_exp_0"] },
             guardOn "_spec_cmp_1" ".bail",
             commitInstr,
             .op { op := "print", args := some ["c"] },
             retInstr,
             Instr.label ".bail"] ++
              scenarioTrace ++ [retInstr] }] } := by
  constructor
  · decide
  · rfl

/-! ## C9: only main is rewritten -/

/-- Claim C9: whenever the pipeline succeeds, the output program has the same
number of functions, every function other than the first one named
`main` is unchanged at its original position, and the rewritten `main`
keeps the original name, parameters and return type. -/
theorem frame_other_functions (trace : List Instr) (prog : Program)
    (p : Program) (h : buildSpec trace prog = .ok p) :
    ∃ idx origMain,
      prog.functions.findIdx? (fun f => f.name == "main") = some idx
      ∧ prog.functions[idx]? = some origMain
      ∧ p.functions.length = prog.functions.length
      ∧ (∀ j, j ≠ idx → p.functions[j]? = prog.functions[j]?)
      ∧ (∃ mainF, p.functions[idx]? = some mainF
          ∧ mainF.name = origMain.name ∧ mainF.args = origMain.args
          ∧ mainF.type = origMain.type) := by
  rw [buildSpec] at h
  split at h
  next e hl => cases h
  next r hl =>
    split at h
    next hidx => cases h
    next idx hidx =>
      split at h
      next hget => cases h
      next origMain hget =>
        injection h with h2
        have hfuns : p.functions = prog.functions.set idx
            { origMain with
              instrs := assembleMain r.guarded r.prints origMain.instrs
                ".bail" } := by
          rw [← h2]
        have hlt : idx < prog.functions.length := by
          obtain ⟨hlt2, _⟩ := List.getElem?_eq_some.mp hget
          exact hlt2
        refine ⟨idx, origMain, hidx, hget, ?_, ?_, ?_⟩
        · rw [hfuns, List.length_set]
        · intro j hj
          rw [hfuns, List.getElem?_set_ne (Ne.symm hj)]
        · refine ⟨{ origMain with
              instrs := assembleMain r.guarded r.prints origMain.instrs
                ".bail" }, ?_, rfl, rfl, rfl⟩
          rw [hfuns]
          exact List.getElem?_set_eq_of_lt _ hlt

/-- Witness for C9: on a two-function program the auxiliary function in
front of `main` is untouched and the rewritten `main` keeps its name,
parameter list and return type. -/
theorem frame_other_functions_witness :
    ∃ idx origMain,
      frameProg.functions.findIdx? (fun f => f.name == "main") = some idx
      ∧ frameProg.functions[idx]? = some origMain
      ∧ (frameProg.functions.set 1
          { name := "main", args := some [{ name := "n", type := "int" }],
            type := some "int",
            instrs := assembleMain [] [] [retInstr] ".bail" }).length =
          frameProg.functions.length
      ∧ (∀ j, j ≠ idx →
          (frameProg.functions.set 1
            { name := "main", args := some [{ name := "n", type := "int" }],
              type := some "int",
              instrs := assembleMain [] [] [retInstr] ".bail" })[j]? =
            frameProg.functions[j]?)
      ∧ (∃ mainF,
          (frameProg.functions.set 1
            { name := "main", args := some [{ name := "n", type := "int" }],
              type := some "int",
              instrs := assembleMain [] [] [retInstr] ".bail" })[idx]? =
            some mainF
          ∧ mainF.name = origMain.name ∧ mainF.args = origMain.args
          ∧ mainF.type = origMain.type) :=
  frame_other_functions frameTrace frameProg
    { functions := frameProg.functions.set 1
        { name := "main", args := some [{ name := "n", type := "int" }],
          type := some "int",
          instrs := assembleMain [] [] [retInstr] ".bail" } }
    (by rfl)

end BuildSpec
